import Mathlib

/-!
Verification of the hpp-constraints core: the BlockIndex interval algebra
(src/matrix-view.cc) and the hierarchical iterative solver
(src/solver/hierarchical-iterative.cc), shallowly embedded in Lean 4.

`size_type` is Eigen's signed index type and is modelled as `Int`;
`value_type` is `double` and is modelled as `ℚ` (only order comparisons and
exact additions occur in the verified code paths).
-/

namespace BlockIndex

/-- `segment_t = std::pair<size_type, size_type>`: `(first, second)` denotes
the half-open integer range `[first, first + second)`. -/
structure segment_t where
  first : Int
  second : Int
deriving DecidableEq, Repr

/-- `segments_t = std::vector<segment_t>`. -/
abbrev segments_t := List segment_t

/-- `BlockIndex::overlap` (matrix-view.cc, lines 43-54), translated branch by
branch from the source. -/
def overlap (a b : segment_t) : Bool :=
  if a.second = 0 then false
  else if b.second = 0 then false
  else
    let aend := a.first + a.second
    let bend := b.first + b.second
    if a.first ≤ b.first ∧ b.first < aend then true
    else if a.first < bend ∧ bend ≤ aend then true
    else false

/-- Body of `BlockIndex::sum` (matrix-view.cc, lines 64-75) after the initial
argument swap, so under the precondition `a.first ≤ b.first`. -/
def sumOrdered (a b : segment_t) : segments_t :=
  if a.first + a.second ≥ b.first then
    [⟨a.first, max a.second (b.first + b.second - a.first)⟩]
  else
    [a, b]

/-- `BlockIndex::sum` on two segments (matrix-view.cc, lines 64-75): the
source first swaps the arguments when `a.first > b.first`, then merges or
concatenates. -/
def sum (a b : segment_t) : segments_t :=
  if a.first > b.first then sumOrdered b a else sumOrdered a b

/-- `BlockIndex::difference` on two segments (matrix-view.cc, lines 77-96). -/
def difference (a b : segment_t) : segments_t :=
  if a.second = 0 then []
  else if b.second = 0 then [a]
  else
    let aend := a.first + a.second
    let bend := b.first + b.second
    let left : segments_t :=
      if a.first < b.first then [⟨a.first, min aend b.first - a.first⟩] else []
    let right : segments_t :=
      if bend < aend then [⟨max a.first bend, aend - max a.first bend⟩] else []
    left ++ right

/-- The half-open ranges of two segments intersect:
`max first < min end`. -/
def rangesIntersect (a b : segment_t) : Prop :=
  max a.first b.first < min (a.first + a.second) (b.first + b.second)

instance (a b : segment_t) : Decidable (rangesIntersect a b) := by
  unfold rangesIntersect; infer_instance

/-- `b` strictly contains `a` as a half-open range (both endpoints strictly
inside). -/
def strictlyContains (b a : segment_t) : Prop :=
  b.first < a.first ∧ a.first + a.second < b.first + b.second

instance (a b : segment_t) : Decidable (strictlyContains b a) := by
  unfold strictlyContains; infer_instance

end BlockIndex

-- ------------------------------------------------------------------
-- Theorems about the BlockIndex algebra (claims C3, C4, C10)
-- ------------------------------------------------------------------

namespace BlockIndex

/-- C3, counterexample: the claim states `overlap` returns true whenever both
segments are non-empty and their half-open ranges intersect, "including the
case where one range strictly contains the other".  At `a = (2,1)`,
`b = (0,10)` the range `[2,3)` is strictly inside `[0,10)` — the intersection
is non-empty and both lengths are positive — yet `overlap` returns `false`. -/
theorem overlap_misses_strict_containment :
    overlap ⟨2, 1⟩ ⟨0, 10⟩ = false ∧
    (0 : Int) < 1 ∧ (0 : Int) < 10 ∧ rangesIntersect ⟨2, 1⟩ ⟨0, 10⟩ := by
  refine ⟨by decide, by decide, by decide, by decide⟩

/-- C3, amended: for segments of positive length, `overlap a b` is true iff
the half-open ranges intersect AND `b` does not strictly contain `a`; it is
false whenever either length is zero.  (The source tests only whether
`b.first` or `b`'s end lies inside `a`, so a `b` that strictly contains `a`
is reported as not overlapping.) -/
theorem overlap_characterization (a b : segment_t)
    (ha : 0 < a.second) (hb : 0 < b.second) :
    overlap a b = true ↔ (rangesIntersect a b ∧ ¬ strictlyContains b a) := by
  unfold overlap rangesIntersect strictlyContains
  have ha' : a.second ≠ 0 := ne_of_gt ha
  have hb' : b.second ≠ 0 := ne_of_gt hb
  simp only [ha', hb', if_false]
  constructor
  · intro h
    by_cases h1 : a.first ≤ b.first ∧ b.first < a.first + a.second
    · refine ⟨?_, ?_⟩
      · simp only [max_lt_iff, lt_min_iff]
        exact ⟨⟨by linarith, h1.2⟩, ⟨by linarith, by linarith⟩⟩
      · intro hc
        exact absurd h1.1 (not_le.mpr hc.1)
    · simp only [h1, if_false] at h
      by_cases h2 : a.first < b.first + b.second ∧ b.first + b.second ≤ a.first + a.second
      · refine ⟨?_, ?_⟩
        · simp only [max_lt_iff, lt_min_iff]
          push_neg at h1
          constructor
          · constructor
            · linarith
            · by_contra hcon
              push_neg at hcon
              have := h1 (by linarith)
              linarith
          · exact ⟨h2.1, by linarith⟩
        · intro hc
          exact absurd h2.2 (not_le.mpr hc.2)
      · simp only [h2, if_false] at h
        exact absurd h (by simp)
  · rintro ⟨hint, hnc⟩
    simp only [max_lt_iff, lt_min_iff] at hint
    obtain ⟨⟨haa, hba⟩, hab, hbb⟩ := hint
    push_neg at hnc
    by_cases hle : a.first ≤ b.first
    · simp [hle, hba]
    · push_neg at hle
      have h2 := hnc hle
      have h1 : ¬ (a.first ≤ b.first ∧ b.first < a.first + a.second) := by
        intro h; exact absurd h.1 (not_le.mpr hle)
      simp only [h1, if_false]
      simp [hab, h2]

/-- C3, witness for the amended characterization at `a = (0,4)`, `b = (2,5)`. -/
theorem overlap_characterization_witness :
    overlap ⟨0, 4⟩ ⟨2, 5⟩ = true ↔
      (rangesIntersect ⟨0, 4⟩ ⟨2, 5⟩ ∧ ¬ strictlyContains ⟨2, 5⟩ ⟨0, 4⟩) :=
  overlap_characterization ⟨0, 4⟩ ⟨2, 5⟩ (by decide) (by decide)

/-- C10: `sum` on two segments is commutative, given the data-model invariant
`length ≥ 0` on both segments. -/
theorem sum_comm (a b : segment_t)
    (ha : 0 ≤ a.second) (hb : 0 ≤ b.second) :
    sum a b = sum b a := by
  unfold sum
  rcases lt_trichotomy a.first b.first with h | h | h
  · have h1 : ¬ a.first > b.first := not_lt.mpr (le_of_lt h)
    have h2 : b.first > a.first := h
    simp [h1, h2]
  · have h1 : ¬ a.first > b.first := by omega
    have h2 : ¬ b.first > a.first := by omega
    simp only [h1, h2, if_false]
    unfold sumOrdered
    have ha2 : a.first + a.second ≥ b.first := by omega
    have hb2 : b.first + b.second ≥ a.first := by omega
    simp only [ha2, hb2, if_pos]
    simp only [List.cons.injEq, and_true, segment_t.mk.injEq]
    exact ⟨h, by omega⟩
  · have h1 : a.first > b.first := h
    have h2 : ¬ b.first > a.first := not_lt.mpr (le_of_lt h)
    simp [h1, h2]

/-- C10, witness at `a = (0,3)`, `b = (0,5)` (the equal-starts case where the
merge branch is exercised). -/
theorem sum_comm_witness :
    sum ⟨0, 3⟩ ⟨0, 5⟩ = sum ⟨0, 5⟩ ⟨0, 3⟩ :=
  sum_comm ⟨0, 3⟩ ⟨0, 5⟩ (by decide) (by decide)

/-- C4, counterexample: the claim states that for a length-0 segment `a`,
`sum(a, b)` equals the canonical union of `b` alone with no length-0 segment
in the result.  At `a = (0,0)`, `b = (5,3)` the source returns
`[(0,0), (5,3)]`: the length-0 segment appears in the result. -/
theorem sum_keeps_empty_segment :
    sum ⟨0, 0⟩ ⟨5, 3⟩ = [⟨0, 0⟩, ⟨5, 3⟩] ∧
    sum ⟨0, 0⟩ ⟨5, 3⟩ ≠ [⟨5, 3⟩] := by
  refine ⟨by decide, by decide⟩

/-- C4, amended: a length-0 segment `a` is absorbed by `overlap` (both
orders) and by `difference` (both orders) for any non-empty `b`, but `sum`
absorbs it exactly when `a.first` lies in the closed range
`[b.first, b.first + b.second]`; otherwise the length-0 segment appears in
the result next to `b`. -/
theorem empty_segment_absorption (a b : segment_t)
    (ha : a.second = 0) (hb : 0 < b.second) :
    overlap a b = false ∧ overlap b a = false ∧
    difference a b = [] ∧ difference b a = [b] ∧
    ((sum a b = [b] ∧ sum b a = [b]) ↔
      (b.first ≤ a.first ∧ a.first ≤ b.first + b.second)) := by
  have hb' : b.second ≠ 0 := ne_of_gt hb
  refine ⟨?_, ?_, ?_, ?_, ?_⟩
  · unfold overlap; simp [ha]
  · unfold overlap; simp [ha, hb']
  · unfold difference; simp [ha]
  · unfold difference; simp [ha, hb']
  · constructor
    · intro ⟨h1, _⟩
      by_contra hcon
      push_neg at hcon
      unfold sum sumOrdered at h1
      by_cases hgt : a.first > b.first
      · have hnm : ¬ (b.first + b.second ≥ a.first) := by
          intro hm; exact absurd hm (not_le.mpr (hcon (le_of_lt hgt)))
        simp only [hgt, if_pos, hnm, if_false] at h1
        exact absurd (congrArg List.length h1) (by simp)
      · push_neg at hgt
        rcases eq_or_lt_of_le hgt with heq | hlt
        · exact absurd (le_of_eq heq.symm) (fun h => absurd (hcon h) (by
            push_neg
            rw [← heq]; omega))
        · have hnm : ¬ (a.first + a.second ≥ b.first) := by omega
          simp only [not_lt.mpr hgt, if_false, hnm] at h1
          exact absurd (congrArg List.length h1) (by simp)
    · intro ⟨h1, h2⟩
      have hs : sum a b = [b] := by
        unfold sum sumOrdered
        by_cases hgt : a.first > b.first
        · have hm : b.first + b.second ≥ a.first := h2
          simp only [hgt, if_pos, hm]
          have : max b.second (a.first + a.second - b.first) = b.second := by omega
          simp [this]
        · push_neg at hgt
          have heq : a.first = b.first := le_antisymm hgt h1
          have hm : a.first + a.second ≥ b.first := by omega
          simp only [not_lt.mpr hgt, if_false, hm, if_pos]
          have hmax : max a.second b.second = b.second := by omega
          simp [heq, hmax]
      refine ⟨hs, ?_⟩
      calc sum b a = sum a b := (sum_comm a b (le_of_eq ha.symm) (le_of_lt hb)).symm
        _ = [b] := hs

/-- C4, witness at `a = (6,0)`, `b = (5,3)`: `a.first = 6` lies inside
`[5, 8]`, so all five conjuncts hold and the `sum` equivalence is usable in
the forward direction. -/
theorem empty_segment_absorption_witness :
    overlap ⟨6, 0⟩ ⟨5, 3⟩ = false ∧ overlap ⟨5, 3⟩ ⟨6, 0⟩ = false ∧
    difference ⟨6, 0⟩ ⟨5, 3⟩ = [] ∧
    difference ⟨5, 3⟩ ⟨6, 0⟩ = [⟨5, 3⟩] ∧
    ((sum ⟨6, 0⟩ ⟨5, 3⟩ = [⟨5, 3⟩] ∧ sum ⟨5, 3⟩ ⟨6, 0⟩ = [⟨5, 3⟩]) ↔
      ((5 : Int) ≤ 6 ∧ (6 : Int) ≤ 5 + 3)) :=
  empty_segment_absorption ⟨6, 0⟩ ⟨5, 3⟩ (by decide) (by decide)

end BlockIndex

-- ------------------------------------------------------------------
-- hierarchical-iterative.cc: comparison application (claim C2)
-- ------------------------------------------------------------------

namespace solver

/-- `ComparisonType` of hpp-constraints (the four kinds used by the solver). -/
inductive ComparisonType where
  | Equality
  | EqualToZero
  | Superior
  | Inferior
deriving DecidableEq, Repr

/-- `compare<Superior, ComputeJac>` (hierarchical-iterative.cc, lines 55-68):
in-place update of one value and its Jacobian row, returned as a pair.  The
row is modelled as the list of its entries; `setZero` maps it to zeros. -/
def compare (superior computeJac : Bool) (val : ℚ) (jac : List ℚ)
    (thr : ℚ) : ℚ × List ℚ :=
  if (superior && decide (val < thr)) || (!superior && decide (-thr < val)) then
    (if superior then val - thr else val + thr, jac)
  else
    (0, if computeJac then jac.map (fun _ => 0) else jac)

/-- One iteration of the loop body of `applyComparison<ComputeJac>`
(hierarchical-iterative.cc, lines 74-81): dispatch on `comparison[j]` and
apply `compare` to `value[j]` and `jacobian.row(j)`. -/
def applyComparisonRow (computeJac : Bool) (comparison : List ComparisonType)
    (j : ℕ) (value : List ℚ) (jacobian : List (List ℚ))
    (thr : ℚ) : List ℚ × List (List ℚ) :=
  if comparison.getD j ComparisonType.Equality = ComparisonType.Superior then
    let c := compare true computeJac (value.getD j 0) (jacobian.getD j []) thr
    (value.set j c.1, jacobian.set j c.2)
  else if comparison.getD j ComparisonType.Equality = ComparisonType.Inferior then
    let c := compare false computeJac (value.getD j 0) (jacobian.getD j []) thr
    (value.set j c.1, jacobian.set j c.2)
  else (value, jacobian)

/-- `applyComparison<ComputeJac>` (hierarchical-iterative.cc, lines 70-82):
fold the loop body over the listed row indices. -/
def applyComparison (computeJac : Bool) (comparison : List ComparisonType)
    (indices : List ℕ) (value : List ℚ) (jacobian : List (List ℚ))
    (thr : ℚ) : List ℚ × List (List ℚ) :=
  match indices with
  | [] => (value, jacobian)
  | j :: rest =>
    let step := applyComparisonRow computeJac comparison j value jacobian thr
    applyComparison computeJac comparison rest step.1 step.2 thr

/-- Writing back the element already stored at position `j` is the
identity. -/
theorem set_getD_self (l : List (List ℚ)) (j : ℕ) :
    l.set j (l.getD j []) = l := by
  induction l generalizing j with
  | nil => rfl
  | cons x xs ih =>
    cases j with
    | zero => rfl
    | succ n =>
      show x :: xs.set n (xs.getD n []) = x :: xs
      rw [ih]

/-- `compare<false, true>` when `−thr < v`: penalize, keep the row. -/
theorem compare_inferior_active (v : ℚ) (jac : List ℚ) (thr : ℚ)
    (hv : -thr < v) : compare false true v jac thr = (v + thr, jac) := by
  unfold compare
  simp [hv]

/-- `compare<false, true>` when `v ≤ −thr`: deactivate, zero the row. -/
theorem compare_inferior_inactive (v : ℚ) (jac : List ℚ) (thr : ℚ)
    (hv : ¬ -thr < v) :
    compare false true v jac thr = (0, jac.map (fun _ => 0)) := by
  unfold compare
  simp [hv]

/-- C2, counterexample: the claim states that for an `Inferior` row with
`−thr < v` the value is set to 0 and the row zeroed.  At
`comparison = [Inferior]`, `v = 0`, `thr = 1`, row `[5]`, we have
`−1 < 0`, yet the source yields `v = 0 + 1 = 1` with the row preserved —
not `v = 0` with the row zeroed. -/
theorem inferior_claim_false_at_zero :
    applyComparison true [ComparisonType.Inferior] [0] [(0 : ℚ)] [[5]] 1
      = ([1], [[5]]) ∧
    applyComparison true [ComparisonType.Inferior] [0] [(0 : ℚ)] [[5]] 1
      ≠ ([0], [[0]]) := by
  have hrow : applyComparisonRow true [ComparisonType.Inferior] 0
      [(0 : ℚ)] [[5]] 1 = ([1], [[5]]) := by
    unfold applyComparisonRow
    rw [if_neg (by decide), if_pos (by decide)]
    show ([(0 : ℚ)].set 0 (compare false true 0 [5] 1).1,
          [[(5 : ℚ)]].set 0 (compare false true 0 [5] 1).2) = ([1], [[5]])
    rw [compare_inferior_active 0 [5] 1 (by norm_num)]
    norm_num
  have h : applyComparison true [ComparisonType.Inferior] [0] [(0 : ℚ)] [[5]] 1
      = ([1], [[5]]) := by
    simp only [applyComparison, hrow]
  refine ⟨h, ?_⟩
  rw [h]
  intro hc
  have hg := congrArg (fun p => p.1.getD 0 0) hc
  simp at hg

/-- C2, amended: for a row `j` whose comparison type is `Inferior`, if
`−thr < v` then `v` becomes `v + thr` and the Jacobian row is preserved;
otherwise (`v ≤ −thr`) the value is set to 0 and the row is zeroed.  (The
two branches of the claim are exchanged relative to the source.) -/
theorem applyComparison_inferior (comparison : List ComparisonType) (j : ℕ)
    (value : List ℚ) (jacobian : List (List ℚ)) (thr : ℚ)
    (h : comparison.getD j ComparisonType.Equality = ComparisonType.Inferior) :
    applyComparison true comparison [j] value jacobian thr =
      if -thr < value.getD j 0 then
        (value.set j (value.getD j 0 + thr), jacobian)
      else
        (value.set j 0,
         jacobian.set j ((jacobian.getD j []).map (fun _ => 0))) := by
  have hns : ¬ comparison.getD j ComparisonType.Equality
      = ComparisonType.Superior := by rw [h]; intro hc; cases hc
  have hrow : applyComparison true comparison [j] value jacobian thr
      = applyComparisonRow true comparison j value jacobian thr := by
    simp only [applyComparison]
  rw [hrow]
  unfold applyComparisonRow
  rw [if_neg hns, if_pos h]
  by_cases hv : -thr < value.getD j 0
  · rw [if_pos hv]
    simp only [compare_inferior_active _ _ _ hv, set_getD_self]
  · rw [if_neg hv]
    simp only [compare_inferior_inactive _ _ _ hv]

/-- C2, witness for the amended statement at `comparison = [Inferior]`,
`j = 0`, `v = 0`, row `[5]`, `thr = 1`. -/
theorem applyComparison_inferior_witness :
    applyComparison true [ComparisonType.Inferior] [0] [(0 : ℚ)] [[5]] 1 =
      if (-1 : ℚ) < ([(0 : ℚ)].getD 0 0) then
        ([(0 : ℚ)].set 0 ([(0 : ℚ)].getD 0 0 + 1), [[(5 : ℚ)]])
      else
        ([(0 : ℚ)].set 0 0,
         [[(5 : ℚ)]].set 0 (([[(5 : ℚ)]].getD 0 []).map (fun _ => 0))) :=
  applyComparison_inferior [ComparisonType.Inferior] 0 [(0 : ℚ)] [[5]] 1
    (by decide)

end solver

-- ------------------------------------------------------------------
-- hierarchical-iterative.cc: saturation (claim C6)
-- ------------------------------------------------------------------

namespace saturation

/-- `saturation::clamp` (hierarchical-iterative.cc, lines 122-137): clamp one
coordinate, returning `(vsat, s, returned)`. -/
def clamp (lb ub v : ℚ) : ℚ × Int × Bool :=
  if v ≤ lb then (lb, -1, true)
  else if v ≥ ub then (ub, 1, true)
  else (v, 0, false)

/-- `saturation::Bounds` holds the two bound vectors. -/
structure Bounds where
  lb : List ℚ
  ub : List ℚ

/-- The coordinate loop of `Bounds::saturate` (hierarchical-iterative.cc,
lines 139-145): per coordinate apply `clamp`; the returned flag is the OR of
the per-coordinate flags. -/
def saturateLists : List ℚ → List ℚ → List ℚ → List ℚ × List Int × Bool
  | lb0 :: lbs, ub0 :: ubs, v :: vs =>
    let c := clamp lb0 ub0 v
    let r := saturateLists lbs ubs vs
    (c.1 :: r.1, c.2.1 :: r.2.1, c.2.2 || r.2.2)
  | _, _, _ => ([], [], false)

/-- `Bounds::saturate` (hierarchical-iterative.cc, lines 139-145). -/
def Bounds.saturate (B : Bounds) (q : List ℚ) : List ℚ × List Int × Bool :=
  saturateLists B.lb B.ub q

theorem saturateLists_length_fst (lb ub q : List ℚ)
    (hl1 : lb.length = q.length) (hl2 : ub.length = q.length) :
    (saturateLists lb ub q).1.length = q.length := by
  induction q generalizing lb ub with
  | nil =>
    cases lb with
    | nil => rfl
    | cons x xs => simp at hl1
  | cons v vs ih =>
    cases lb with
    | nil => simp at hl1
    | cons lb0 lbs =>
      cases ub with
      | nil => simp at hl2
      | cons ub0 ubs =>
        simp only [saturateLists, List.length_cons]
        rw [ih lbs ubs (by simpa using hl1) (by simpa using hl2)]

theorem saturateLists_length_sign (lb ub q : List ℚ)
    (hl1 : lb.length = q.length) (hl2 : ub.length = q.length) :
    (saturateLists lb ub q).2.1.length = q.length := by
  induction q generalizing lb ub with
  | nil =>
    cases lb with
    | nil => rfl
    | cons x xs => simp at hl1
  | cons v vs ih =>
    cases lb with
    | nil => simp at hl1
    | cons lb0 lbs =>
      cases ub with
      | nil => simp at hl2
      | cons ub0 ubs =>
        simp only [saturateLists, List.length_cons]
        rw [ih lbs ubs (by simpa using hl1) (by simpa using hl2)]

/-- Component-wise characterization of the loop: coordinate `i` of the
result is `clamp` applied to coordinate `i` of the inputs. -/
theorem saturateLists_getD (lb ub q : List ℚ) (i : ℕ)
    (hl1 : lb.length = q.length) (hl2 : ub.length = q.length)
    (hi : i < q.length) :
    (saturateLists lb ub q).1.getD i 0
      = (clamp (lb.getD i 0) (ub.getD i 0) (q.getD i 0)).1 ∧
    (saturateLists lb ub q).2.1.getD i 0
      = (clamp (lb.getD i 0) (ub.getD i 0) (q.getD i 0)).2.1 := by
  induction q generalizing lb ub i with
  | nil => exact absurd hi (by simp)
  | cons v vs ih =>
    cases lb with
    | nil => simp at hl1
    | cons lb0 lbs =>
      cases ub with
      | nil => simp at hl2
      | cons ub0 ubs =>
        cases i with
        | zero => exact ⟨rfl, rfl⟩
        | succ n =>
          have hn : n < vs.length := by simpa using hi
          exact ih lbs ubs n (by simpa using hl1) (by simpa using hl2) hn

/-- The returned flag is the OR of the per-coordinate clamp flags. -/
theorem saturateLists_flag (lb ub q : List ℚ)
    (hl1 : lb.length = q.length) (hl2 : ub.length = q.length) :
    ((saturateLists lb ub q).2.2 = true ↔
      ∃ i, i < q.length ∧
        (clamp (lb.getD i 0) (ub.getD i 0) (q.getD i 0)).2.2 = true) := by
  induction q generalizing lb ub with
  | nil =>
    cases lb with
    | nil => simp [saturateLists]
    | cons x xs => simp at hl1
  | cons v vs ih =>
    cases lb with
    | nil => simp at hl1
    | cons lb0 lbs =>
      cases ub with
      | nil => simp at hl2
      | cons ub0 ubs =>
        have ihr := ih lbs ubs (by simpa using hl1) (by simpa using hl2)
        constructor
        · intro hf
          have : (clamp lb0 ub0 v).2.2 = true ∨
              (saturateLists lbs ubs vs).2.2 = true := by
            have : ((clamp lb0 ub0 v).2.2 || (saturateLists lbs ubs vs).2.2)
                = true := hf
            exact Bool.or_eq_true_iff.mp this
          rcases this with hc | hr
          · exact ⟨0, by simp, hc⟩
          · obtain ⟨n, hn, hcn⟩ := ihr.mp hr
            exact ⟨n + 1, by simpa using hn, hcn⟩
        · rintro ⟨i, hi, hci⟩
          show ((clamp lb0 ub0 v).2.2 || (saturateLists lbs ubs vs).2.2) = true
          rw [Bool.or_eq_true_iff]
          cases i with
          | zero => exact Or.inl hci
          | succ n =>
            exact Or.inr (ihr.mpr ⟨n, by simpa using hi, hci⟩)

/-- `clamp` keeps the result inside `[lb, ub]` when `lb ≤ ub`. -/
theorem clamp_mem (lb ub v : ℚ) (hord : lb ≤ ub) :
    lb ≤ (clamp lb ub v).1 ∧ (clamp lb ub v).1 ≤ ub := by
  unfold clamp
  by_cases h1 : v ≤ lb
  · simp [h1, hord]
  · by_cases h2 : v ≥ ub
    · simp [h1, h2, hord]
    · push_neg at h1 h2
      simp [not_le.mpr h1, not_le.mpr h2, le_of_lt h1, le_of_lt h2]

/-- The clamp sign is 0 exactly on the open interior. -/
theorem clamp_sign_zero (lb ub v : ℚ) :
    (clamp lb ub v).2.1 = 0 ↔ (lb < v ∧ v < ub) := by
  unfold clamp
  by_cases h1 : v ≤ lb
  · simp only [h1, if_pos]
    constructor
    · intro hc; cases hc
    · rintro ⟨hl, _⟩; exact absurd h1 (not_le.mpr hl)
  · by_cases h2 : v ≥ ub
    · simp only [h1, if_neg, not_false_iff, h2, if_pos]
      constructor
      · intro hc; cases hc
      · rintro ⟨_, hu⟩; exact absurd h2 (not_le.mpr hu)
    · push_neg at h1 h2
      simp [not_le.mpr h1, not_le.mpr h2, h1, h2]

/-- The clamp flag is set exactly when the sign is non-zero. -/
theorem clamp_flag_iff_sign (lb ub v : ℚ) :
    (clamp lb ub v).2.2 = true ↔ (clamp lb ub v).2.1 ≠ 0 := by
  unfold clamp
  by_cases h1 : v ≤ lb
  · simp [h1]
  · by_cases h2 : v ≥ ub
    · simp [h1, h2]
    · simp [h1, h2]

/-- Lower clamp: when `v ≤ lb` the sign is −1 and the result is `lb`. -/
theorem clamp_lower (lb ub v : ℚ) (h : v ≤ lb) :
    (clamp lb ub v).2.1 = -1 ∧ (clamp lb ub v).1 = lb := by
  unfold clamp
  simp [h]

/-- Upper clamp: when `lb < v` and `ub ≤ v` the sign is +1 and the result is
`ub`. -/
theorem clamp_upper (lb ub v : ℚ) (h1 : lb < v) (h2 : ub ≤ v) :
    (clamp lb ub v).2.1 = 1 ∧ (clamp lb ub v).1 = ub := by
  unfold clamp
  simp [not_le.mpr h1, h2]

/-- C6: for coordinatewise bounds `lb ≤ ub`, `Bounds::saturate` clamps every
coordinate into `[lb[i], ub[i]]`; `sign[i]` is 0 iff `lb[i] < q[i] < ub[i]`,
−1 when the coordinate is clamped at the lower bound (`q[i] ≤ lb[i]`) with
`qSat[i] = lb[i]`, and +1 when it is clamped at the upper bound
(`lb[i] < q[i]` and `ub[i] ≤ q[i]`) with `qSat[i] = ub[i]`; the call returns
true iff some sign is non-zero. -/
theorem Bounds_saturate_spec (lb ub q : List ℚ)
    (hl1 : lb.length = q.length) (hl2 : ub.length = q.length)
    (hord : ∀ i, i < q.length → lb.getD i 0 ≤ ub.getD i 0) :
    (∀ i, i < q.length →
      lb.getD i 0 ≤ (Bounds.saturate ⟨lb, ub⟩ q).1.getD i 0 ∧
      (Bounds.saturate ⟨lb, ub⟩ q).1.getD i 0 ≤ ub.getD i 0 ∧
      ((Bounds.saturate ⟨lb, ub⟩ q).2.1.getD i 0 = 0 ↔
        (lb.getD i 0 < q.getD i 0 ∧ q.getD i 0 < ub.getD i 0)) ∧
      (q.getD i 0 ≤ lb.getD i 0 →
        (Bounds.saturate ⟨lb, ub⟩ q).2.1.getD i 0 = -1 ∧
        (Bounds.saturate ⟨lb, ub⟩ q).1.getD i 0 = lb.getD i 0) ∧
      (lb.getD i 0 < q.getD i 0 → ub.getD i 0 ≤ q.getD i 0 →
        (Bounds.saturate ⟨lb, ub⟩ q).2.1.getD i 0 = 1 ∧
        (Bounds.saturate ⟨lb, ub⟩ q).1.getD i 0 = ub.getD i 0)) ∧
    ((Bounds.saturate ⟨lb, ub⟩ q).2.2 = true ↔
      ∃ i, i < q.length ∧ (Bounds.saturate ⟨lb, ub⟩ q).2.1.getD i 0 ≠ 0) := by
  unfold Bounds.saturate
  constructor
  · intro i hi
    obtain ⟨hv, hs⟩ := saturateLists_getD lb ub q i hl1 hl2 hi
    have hm := clamp_mem (lb.getD i 0) (ub.getD i 0) (q.getD i 0) (hord i hi)
    refine ⟨?_, ?_, ?_, ?_, ?_⟩
    · rw [hv]; exact hm.1
    · rw [hv]; exact hm.2
    · rw [hs]; exact clamp_sign_zero _ _ _
    · intro hlo
      have hc := clamp_lower (lb.getD i 0) (ub.getD i 0) (q.getD i 0) hlo
      exact ⟨by rw [hs]; exact hc.1, by rw [hv]; exact hc.2⟩
    · intro hgt hup
      have hc := clamp_upper (lb.getD i 0) (ub.getD i 0) (q.getD i 0) hgt hup
      exact ⟨by rw [hs]; exact hc.1, by rw [hv]; exact hc.2⟩
  · rw [saturateLists_flag lb ub q hl1 hl2]
    constructor
    · rintro ⟨i, hi, hci⟩
      refine ⟨i, hi, ?_⟩
      rw [(saturateLists_getD lb ub q i hl1 hl2 hi).2]
      exact (clamp_flag_iff_sign _ _ _).mp hci
    · rintro ⟨i, hi, hsi⟩
      refine ⟨i, hi, ?_⟩
      rw [(saturateLists_getD lb ub q i hl1 hl2 hi).2] at hsi
      exact (clamp_flag_iff_sign _ _ _).mpr hsi

/-- C6, witness at `lb = [0,0]`, `ub = [2,2]`, `q = [−1,1]`: the first
coordinate is clamped to the lower bound (sign −1), the second is interior
(sign 0). -/
theorem Bounds_saturate_spec_witness :
    (∀ i, i < [(-1 : ℚ), 1].length →
      [(0 : ℚ), 0].getD i 0
          ≤ (Bounds.saturate ⟨[0, 0], [2, 2]⟩ [(-1 : ℚ), 1]).1.getD i 0 ∧
      (Bounds.saturate ⟨[0, 0], [2, 2]⟩ [(-1 : ℚ), 1]).1.getD i 0
          ≤ [(2 : ℚ), 2].getD i 0 ∧
      ((Bounds.saturate ⟨[0, 0], [2, 2]⟩ [(-1 : ℚ), 1]).2.1.getD i 0 = 0 ↔
        ([(0 : ℚ), 0].getD i 0 < [(-1 : ℚ), 1].getD i 0 ∧
         [(-1 : ℚ), 1].getD i 0 < [(2 : ℚ), 2].getD i 0)) ∧
      ([(-1 : ℚ), 1].getD i 0 ≤ [(0 : ℚ), 0].getD i 0 →
        (Bounds.saturate ⟨[0, 0], [2, 2]⟩ [(-1 : ℚ), 1]).2.1.getD i 0 = -1 ∧
        (Bounds.saturate ⟨[0, 0], [2, 2]⟩ [(-1 : ℚ), 1]).1.getD i 0
          = [(0 : ℚ), 0].getD i 0) ∧
      ([(0 : ℚ), 0].getD i 0 < [(-1 : ℚ), 1].getD i 0 →
        [(2 : ℚ), 2].getD i 0 ≤ [(-1 : ℚ), 1].getD i 0 →
        (Bounds.saturate ⟨[0, 0], [2, 2]⟩ [(-1 : ℚ), 1]).2.1.getD i 0 = 1 ∧
        (Bounds.saturate ⟨[0, 0], [2, 2]⟩ [(-1 : ℚ), 1]).1.getD i 0
          = [(2 : ℚ), 2].getD i 0)) ∧
    ((Bounds.saturate ⟨[0, 0], [2, 2]⟩ [(-1 : ℚ), 1]).2.2 = true ↔
      ∃ i, i < [(-1 : ℚ), 1].length ∧
        (Bounds.saturate ⟨[0, 0], [2, 2]⟩ [(-1 : ℚ), 1]).2.1.getD i 0 ≠ 0) :=
  Bounds_saturate_spec [0, 0] [2, 2] [(-1 : ℚ), 1] (by simp) (by simp)
    (by
      intro i hi
      simp only [List.length_cons, List.length_nil] at hi
      interval_cases i <;> norm_num)

end saturation

-- ------------------------------------------------------------------
-- hierarchical-iterative.cc: HierarchicalIterative::add (claim C5)
-- ------------------------------------------------------------------

namespace solver

/-- An implicit constraint as `add` sees it: a differentiable function
identified up to value equality (`operator==`, modelled as a numeric
identifier), its output sizes, and its comparison-type vector. -/
structure Implicit where
  func : ℕ
  nq : ℕ
  nv : ℕ
  comparisonType : List ComparisonType
deriving DecidableEq, Repr

/-- The parts of per-level `Data` touched by `add`: the comparison vector,
its partition into inequality and equality row indices, and the accumulated
output-space sizes (`output.space()->nq()/nv()`). -/
structure Data where
  comparison : List ComparisonType
  inequalityIndices : List ℕ
  equalityIndices : List ℕ
  outNq : ℕ
  outNv : ℕ
deriving DecidableEq, Repr

def Data.empty : Data := ⟨[], [], [], 0, 0⟩

/-- The solver state visible to `add` (hierarchical-iterative.cc): the
per-priority stacks, per-priority data, the three function-keyed maps, and
the flat constraint list. -/
structure HierarchicalIterative where
  stacks_ : List (List Implicit)
  datas_ : List Data
  priority_ : List (ℕ × ℕ)
  iq_ : List (ℕ × ℕ)
  iv_ : List (ℕ × ℕ)
  constraints_ : List Implicit
deriving DecidableEq, Repr

/-- The comparison-partition loop of `add` (lines 281-288): for each entry,
Superior/Inferior rows go to `inequalityIndices`, Equality rows to
`equalityIndices` (EqualToZero to neither), then the entry is appended to
the comparison vector. -/
def pushComparisons (d : Data) (comp : List ComparisonType) : Data :=
  comp.foldl (fun d c =>
    let d1 :=
      if c = ComparisonType.Superior ∨ c = ComparisonType.Inferior then
        { d with inequalityIndices := d.inequalityIndices ++ [d.comparison.length] }
      else if c = ComparisonType.Equality then
        { d with equalityIndices := d.equalityIndices ++ [d.comparison.length] }
      else d
    { d1 with comparison := d1.comparison ++ [c] }) d

/-- `HierarchicalIterative::add` (lines 254-294).  The duplicate check
(lines 256-263) throws before any field is modified; afterwards the maps,
stacks and data are grown exactly as in the source.  (`update()` is also
invoked by the source at line 291; it only rebuilds derived buffers from the
fields below.) -/
def add (s : HierarchicalIterative) (constraint : Implicit)
    (priority : ℕ) : Except String HierarchicalIterative :=
  if s.priority_.any (fun arg => arg.1 == constraint.func) then
    Except.error "constraint already in solver"
  else
    let priority_ := s.priority_ ++ [(constraint.func, priority)]
    let minSize := priority + 1
    let stacks0 :=
      if s.stacks_.length < minSize then
        s.stacks_ ++ List.replicate (minSize - s.stacks_.length) []
      else s.stacks_
    let datas0 :=
      if s.datas_.length < minSize then
        s.datas_ ++ List.replicate (minSize - s.datas_.length) Data.empty
      else s.datas_
    let d0 := datas0.getD priority Data.empty
    let iq_ := s.iq_ ++ [(constraint.func, d0.outNq)]
    let iv_ := s.iv_ ++ [(constraint.func, d0.outNv)]
    let stacks1 := stacks0.set priority
      (stacks0.getD priority [] ++ [constraint])
    let d1 := pushComparisons d0 constraint.comparisonType
    let d2 := { d1 with outNq := d1.outNq + constraint.nq,
                        outNv := d1.outNv + constraint.nv }
    Except.ok { stacks_ := stacks1, datas_ := datas0.set priority d2,
                priority_ := priority_, iq_ := iq_, iv_ := iv_,
                constraints_ := s.constraints_ ++ [constraint] }

/-- C5: adding a constraint whose function compares equal to one already
present at any priority raises a logic error; no state is produced (and in
the source the throw at line 262 precedes every mutation, so the solver
state is unchanged). -/
theorem add_duplicate_rejected (s : HierarchicalIterative) (c : Implicit)
    (p : ℕ) (h : ∃ e ∈ s.priority_, e.1 = c.func) :
    add s c p = Except.error "constraint already in solver" := by
  have hb : s.priority_.any (fun arg => arg.1 == c.func) = true := by
    obtain ⟨e, he, hf⟩ := h
    exact List.any_eq_true.mpr ⟨e, he, by simp [hf]⟩
  unfold add
  rw [if_pos hb]

/-- C5, witness: a solver holding one constraint with function id 7 at
priority 0 rejects a new constraint with an equal function at priority 1. -/
theorem add_duplicate_rejected_witness :
    add ⟨[[⟨7, 1, 1, [ComparisonType.Equality]⟩]],
         [⟨[ComparisonType.Equality], [], [0], 1, 1⟩],
         [(7, 0)], [(7, 0)], [(7, 0)],
         [⟨7, 1, 1, [ComparisonType.Equality]⟩]⟩
        ⟨7, 2, 2, []⟩ 1
      = Except.error "constraint already in solver" :=
  add_duplicate_rejected _ _ _ ⟨(7, 0), by simp, rfl⟩

-- ------------------------------------------------------------------
-- hierarchical-iterative.cc: computeError loop bound (claim C9)
-- ------------------------------------------------------------------

/-- The modulus of `std::size_t` on the target platform (64-bit). -/
def SIZE_T_MOD : ℕ := 2 ^ 64

/-- The loop bound `end` computed by `computeError` (lines 674-675):
`lastIsOptional_ ? stacks_.size() - 1 : stacks_.size()`, the subtraction
performed on the unsigned `std::size_t`. -/
def computeErrorEnd (lastIsOptional : Bool) (size : ℕ) : ℕ :=
  if lastIsOptional then (size + (SIZE_T_MOD - 1)) % SIZE_T_MOD else size

/-- The aggregation loop of `computeError` (line 677) reads `stacks_[i]` and
`datas_[i]` for every `i < end`. -/
def computeErrorReads (lastIsOptional : Bool) (size : ℕ) (i : ℕ) : Prop :=
  i < computeErrorEnd lastIsOptional size

instance (b : Bool) (n i : ℕ) : Decidable (computeErrorReads b n i) := by
  unfold computeErrorReads; infer_instance

/-- C9 fails on the code: with `lastIsOptional_ = true` and zero priority
levels, `stacks_.size() - 1` wraps around to `2^64 − 1`, the loop runs, and
its first iteration reads level index 0, which is not smaller than the
number of levels (0).  This contradicts the evident intent (skip the last
level of a non-empty stack); the fix would clamp `end` at 0. -/
theorem computeError_end_underflows :
    computeErrorEnd true 0 = 2 ^ 64 - 1 ∧
    computeErrorReads true 0 0 ∧ ¬ (0 < 0) := by
  refine ⟨?_, ?_, by decide⟩
  · show (0 + (2 ^ 64 - 1)) % 2 ^ 64 = 2 ^ 64 - 1
    norm_num
  · show 0 < (0 + (2 ^ 64 - 1)) % 2 ^ 64
    norm_num

end solver

-- ------------------------------------------------------------------
-- hierarchical-iterative.cc: sigma and maxRank bookkeeping of
-- computeDescentDirection (claims C1 and C7)
-- ------------------------------------------------------------------

namespace solver

/-- Per-level outcome of the SVD factorization in one call to
`computeDescentDirection`, abstracting the numerical linear algebra:
`hasRows` is `reducedJ.rows() != 0`, `rank` is `svd.rank()`,
`singularValues` the decreasing singular values of this call's factorization,
`vcols` is `svd.matrixV().cols()`, and `errSqBig` is
`err.squaredNorm() > squaredErrorThreshold_` (used by `solveLevelByLevel_`). -/
structure LevelIn where
  hasRows : Bool
  rank : ℕ
  singularValues : List ℚ
  vcols : ℕ
  errSqBig : Bool
deriving DecidableEq, Repr

/-- `std::numeric_limits<value_type>::max()` = DBL_MAX, the value `sigma_`
is reset to at line 724. -/
def valueTypeMax : ℚ := 2 ^ 1024 - 2 ^ 971

/-- The multi-level loop of `computeDescentDirection` (lines 752-799)
restricted to its `maxRank`/`sigma` bookkeeping: levels without active rows
are skipped (line 757); a processed level raises its `maxRank` to the rank
of this call's SVD (line 785) and lowers `sigma` to this call's singular
value at index `maxRank − 1` (lines 786-787); the loop breaks on
`solveLevelByLevel` with a large residual (line 788), after the last level
(line 790), or on a trivial kernel (line 792). -/
def cddLoop (sLBL : Bool) : List LevelIn → List ℕ → ℚ → List ℕ × ℚ
  | [], mrs, sigma => (mrs, sigma)
  | _ :: _, [], sigma => ([], sigma)
  | ℓ :: ls, mr :: mrs, sigma =>
    if ℓ.hasRows = false then
      let r := cddLoop sLBL ls mrs sigma
      (mr :: r.1, r.2)
    else
      let mr1 := max mr ℓ.rank
      let sigma1 :=
        if 0 < mr1 then min sigma (ℓ.singularValues.getD (mr1 - 1) 0)
        else sigma
      if sLBL && ℓ.errSqBig then (mr1 :: mrs, sigma1)
      else if ls.isEmpty then (mr1 :: mrs, sigma1)
      else if ℓ.vcols = ℓ.rank then (mr1 :: mrs, sigma1)
      else
        let r := cddLoop sLBL ls mrs sigma1
        (mr1 :: r.1, r.2)

/-- The `maxRank`/`sigma` bookkeeping of one call to
`computeDescentDirection` (lines 723-802): `sigma_` is reset to the maximum
value (line 724); with no levels nothing else happens (lines 726-729); with
a single level the dedicated branch (lines 731-740) updates that level; with
several levels the prioritized loop runs.  Takes the per-level SVD outcomes
of this call and the entering `maxRank`s, returns the updated `maxRank`s and
the reported `sigma`. -/
def computeDescentDirectionRanks (sLBL : Bool) (levels : List LevelIn)
    (maxRanks : List ℕ) : List ℕ × ℚ :=
  match levels, maxRanks with
  | [], _ => (maxRanks, valueTypeMax)
  | [ℓ], [mr] =>
    let mr1 := max mr ℓ.rank
    let sigma1 :=
      if 0 < mr1 then min valueTypeMax (ℓ.singularValues.getD (mr1 - 1) 0)
      else valueTypeMax
    ([mr1], sigma1)
  | _, _ => cddLoop sLBL levels maxRanks valueTypeMax

/-- The singular values tracked into `sigma` by the multi-level loop of the
current call, in processing order (one per processed level with positive
updated `maxRank`, stopping at the same break conditions as the loop). -/
def trackedSVs (sLBL : Bool) : List LevelIn → List ℕ → List ℚ
  | [], _ => []
  | _ :: _, [] => []
  | ℓ :: ls, mr :: mrs =>
    if ℓ.hasRows = false then trackedSVs sLBL ls mrs
    else
      let mr1 := max mr ℓ.rank
      let here := if 0 < mr1 then [ℓ.singularValues.getD (mr1 - 1) 0] else []
      if sLBL && ℓ.errSqBig then here
      else if ls.isEmpty then here
      else if ℓ.vcols = ℓ.rank then here
      else here ++ trackedSVs sLBL ls mrs

/-- The singular values tracked by one whole call (empty, single-level or
multi-level case). -/
def callTrackedSVs (sLBL : Bool) (levels : List LevelIn)
    (maxRanks : List ℕ) : List ℚ :=
  match levels, maxRanks with
  | [], _ => []
  | [ℓ], [mr] =>
    let mr1 := max mr ℓ.rank
    if 0 < mr1 then [ℓ.singularValues.getD (mr1 - 1) 0] else []
  | _, _ => trackedSVs sLBL levels maxRanks

/-- Consecutive calls to `computeDescentDirection` within one `solve` (no
intervening `update`): each call receives the SVD outcomes of its iteration
and threads the `maxRank` state. -/
def solveIterations (sLBL : Bool) (calls : List (List LevelIn))
    (maxRanks : List ℕ) : List ℕ :=
  calls.foldl
    (fun mrs call => (computeDescentDirectionRanks sLBL call mrs).1) maxRanks

theorem cddLoop_sigma_foldl (sLBL : Bool) (ls : List LevelIn) (mrs : List ℕ)
    (sigma : ℚ) :
    (cddLoop sLBL ls mrs sigma).2 = (trackedSVs sLBL ls mrs).foldl min sigma := by
  induction ls generalizing mrs sigma with
  | nil => rfl
  | cons ℓ rest ih =>
    cases mrs with
    | nil => rfl
    | cons mr mrs =>
      by_cases hr : ℓ.hasRows = false
      · simp only [cddLoop, trackedSVs, hr, if_pos, if_true]
        exact ih mrs sigma
      · simp only [cddLoop, trackedSVs, hr, if_false]
        by_cases hp : 0 < max mr ℓ.rank
        · simp only [hp, if_pos, if_true]
          by_cases h1 : (sLBL && ℓ.errSqBig) = true
          · simp [h1]
          · simp only [h1, if_false, Bool.false_eq_true]
            by_cases h2 : rest.isEmpty = true
            · simp [h2]
            · simp only [h2, if_false, Bool.false_eq_true]
              by_cases h3 : ℓ.vcols = ℓ.rank
              · simp [h3]
              · simp [h3, ih]
        · simp only [hp, if_neg, if_false]
          by_cases h1 : (sLBL && ℓ.errSqBig) = true
          · simp [h1]
          · simp only [h1, if_false, Bool.false_eq_true]
            by_cases h2 : rest.isEmpty = true
            · simp [h2]
            · simp only [h2, if_false, Bool.false_eq_true]
              by_cases h3 : ℓ.vcols = ℓ.rank
              · simp [h3]
              · simp [h3, ih]

/-- C1, amended: the value reported by `sigma()` after a call to
`computeDescentDirection` is the minimum, seeded with the maximum
representable value, of the singular values tracked during that call only
(one per processed level with positive updated `maxRank`).  `sigma_` is
reset at line 724 on every call, so it is a monotone min only within one
call, not across the iterations of a `solve`. -/
theorem sigma_min_over_current_call (sLBL : Bool) (levels : List LevelIn)
    (mrs : List ℕ) :
    (computeDescentDirectionRanks sLBL levels mrs).2
      = (callTrackedSVs sLBL levels mrs).foldl min valueTypeMax := by
  match levels, mrs with
  | [], mrs => rfl
  | [ℓ], [mr] =>
    simp only [computeDescentDirectionRanks, callTrackedSVs]
    by_cases hp : 0 < max mr ℓ.rank
    · simp [hp]
    · simp [hp]
  | [ℓ], [] =>
    simp only [computeDescentDirectionRanks, callTrackedSVs]
    rfl
  | [ℓ], mr1 :: mr2 :: mrs =>
    exact cddLoop_sigma_foldl sLBL [ℓ] (mr1 :: mr2 :: mrs) valueTypeMax
  | ℓ1 :: ℓ2 :: ls, mrs =>
    exact cddLoop_sigma_foldl sLBL (ℓ1 :: ℓ2 :: ls) mrs valueTypeMax

/-- C1, counterexample: two consecutive iterations of one `solve` on a
single-level system.  Iteration 1 sees singular value 1 at rank 1, so
`sigma` reports 1; iteration 2 sees singular value 2 at the same rank, and
`sigma` reports 2 — strictly larger.  The smallest non-zero singular value
observed since the solve began is 1, and `sigma` is not non-increasing
across iterations: it is recomputed from scratch on every call. -/
theorem sigma_not_monotone_across_iterations :
    (computeDescentDirectionRanks false [⟨true, 1, [1], 1, false⟩] [0]).2 = 1 ∧
    (computeDescentDirectionRanks false [⟨true, 1, [2], 1, false⟩]
        (computeDescentDirectionRanks false [⟨true, 1, [1], 1, false⟩] [0]).1).2
      = 2 ∧
    ¬ ((2 : ℚ) ≤ 1) := by
  have h1 : (computeDescentDirectionRanks false [⟨true, 1, [1], 1, false⟩]
      [0]).2 = min valueTypeMax 1 := rfl
  have h2 : (computeDescentDirectionRanks false [⟨true, 1, [2], 1, false⟩]
      (computeDescentDirectionRanks false [⟨true, 1, [1], 1, false⟩] [0]).1).2
        = min valueTypeMax 2 := rfl
  refine ⟨?_, ?_, by norm_num⟩
  · rw [h1]
    exact min_eq_right (by norm_num [valueTypeMax])
  · rw [h2]
    exact min_eq_right (by norm_num [valueTypeMax])

theorem cddLoop_maxRank_char (sLBL : Bool) (ls : List LevelIn) (mrs : List ℕ)
    (sigma : ℚ) (i : ℕ) :
    (cddLoop sLBL ls mrs sigma).1.getD i 0 = mrs.getD i 0 ∨
    (cddLoop sLBL ls mrs sigma).1.getD i 0
      = max (mrs.getD i 0) ((ls.getD i ⟨false, 0, [], 0, false⟩).rank) := by
  induction ls generalizing mrs sigma i with
  | nil => exact Or.inl rfl
  | cons ℓ rest ih =>
    cases mrs with
    | nil =>
      left
      show (([] : List ℕ).getD i 0) = (([] : List ℕ).getD i 0)
      rfl
    | cons mr mrs =>
      by_cases hr : ℓ.hasRows = false
      · simp only [cddLoop, hr, if_pos, if_true]
        cases i with
        | zero => exact Or.inl rfl
        | succ n =>
          have := ih mrs sigma n
          simpa using this
      · simp only [cddLoop, hr, if_false]
        by_cases h1 : (sLBL && ℓ.errSqBig) = true
        · simp only [h1, if_pos, if_true]
          cases i with
          | zero => exact Or.inr rfl
          | succ n => exact Or.inl rfl
        · simp only [h1, if_false, Bool.false_eq_true]
          by_cases h2 : rest.isEmpty = true
          · simp only [h2, if_pos, if_true]
            cases i with
            | zero => exact Or.inr rfl
            | succ n => exact Or.inl rfl
          · simp only [h2, if_false, Bool.false_eq_true]
            by_cases h3 : ℓ.vcols = ℓ.rank
            · simp only [h3, if_pos, if_true]
              cases i with
              | zero => exact Or.inr rfl
              | succ n => exact Or.inl rfl
            · simp only [h3, if_false]
              cases i with
              | zero => exact Or.inr rfl
              | succ n =>
                have := ih mrs (if 0 < max mr ℓ.rank then
                  min sigma (ℓ.singularValues.getD (max mr ℓ.rank - 1) 0)
                  else sigma) n
                simpa using this

theorem cdd_maxRank_char (sLBL : Bool) (levels : List LevelIn)
    (mrs : List ℕ) (i : ℕ) :
    (computeDescentDirectionRanks sLBL levels mrs).1.getD i 0 = mrs.getD i 0 ∨
    (computeDescentDirectionRanks sLBL levels mrs).1.getD i 0
      = max (mrs.getD i 0) ((levels.getD i ⟨false, 0, [], 0, false⟩).rank) := by
  match levels, mrs with
  | [], mrs => exact Or.inl rfl
  | [ℓ], [mr] =>
    cases i with
    | zero => exact Or.inr rfl
    | succ n =>
      left
      show ([max mr ℓ.rank].getD (n + 1) 0) = ([mr].getD (n + 1) 0)
      rfl
  | [ℓ], [] => exact cddLoop_maxRank_char sLBL [ℓ] [] valueTypeMax i
  | [ℓ], mr1 :: mr2 :: mrs =>
    exact cddLoop_maxRank_char sLBL [ℓ] (mr1 :: mr2 :: mrs) valueTypeMax i
  | ℓ1 :: ℓ2 :: ls, mrs =>
    exact cddLoop_maxRank_char sLBL (ℓ1 :: ℓ2 :: ls) mrs valueTypeMax i

theorem cdd_maxRank_mono (sLBL : Bool) (levels : List LevelIn)
    (mrs : List ℕ) (i : ℕ) :
    mrs.getD i 0 ≤ (computeDescentDirectionRanks sLBL levels mrs).1.getD i 0 := by
  rcases cdd_maxRank_char sLBL levels mrs i with h | h
  · rw [h]
  · rw [h]; exact le_max_left _ _

/-- Which levels the multi-level loop of `computeDescentDirection`
processes in one call (same control flow as `cddLoop`): a level is processed
iff it is reached (no earlier break) and has active rows; levels skipped at
line 757 and levels after a break (lines 788, 790, 792) are not processed. -/
def cddProcessed (sLBL : Bool) : List LevelIn → List ℕ → List Bool
  | [], _ => []
  | _ :: _, [] => []
  | ℓ :: ls, _ :: mrs =>
    if ℓ.hasRows = false then false :: cddProcessed sLBL ls mrs
    else
      if sLBL && ℓ.errSqBig then true :: mrs.map (fun _ => false)
      else if ls.isEmpty then true :: mrs.map (fun _ => false)
      else if ℓ.vcols = ℓ.rank then true :: mrs.map (fun _ => false)
      else true :: cddProcessed sLBL ls mrs

/-- Which levels one whole call to `computeDescentDirection` processes: none
when the stack is empty, the unique level in the single-level branch
(lines 731-740, which has no skip), else the loop's processed levels. -/
def callProcessed (sLBL : Bool) (levels : List LevelIn)
    (maxRanks : List ℕ) : List Bool :=
  match levels, maxRanks with
  | [], _ => maxRanks.map (fun _ => false)
  | [_], [_] => [true]
  | _, _ => cddProcessed sLBL levels maxRanks

theorem getD_map_false (l : List ℕ) (n : ℕ) :
    (l.map (fun _ => false)).getD n false = false := by
  induction l generalizing n with
  | nil => rfl
  | cons x xs ih =>
    cases n with
    | zero => rfl
    | succ m => exact ih m

theorem cddLoop_maxRank_processed (sLBL : Bool) (ls : List LevelIn)
    (mrs : List ℕ) (sigma : ℚ) (i : ℕ) :
    ((cddProcessed sLBL ls mrs).getD i false = true →
      (cddLoop sLBL ls mrs sigma).1.getD i 0
        = max (mrs.getD i 0) ((ls.getD i ⟨false, 0, [], 0, false⟩).rank)) ∧
    ((cddProcessed sLBL ls mrs).getD i false = false →
      (cddLoop sLBL ls mrs sigma).1.getD i 0 = mrs.getD i 0) := by
  induction ls generalizing mrs sigma i with
  | nil =>
    refine ⟨fun h => absurd h ?_, fun _ => rfl⟩
    simp [cddProcessed]
  | cons ℓ rest ih =>
    cases mrs with
    | nil =>
      constructor
      · intro h
        exact absurd h (by simp [cddProcessed])
      · intro _
        show (([] : List ℕ).getD i 0) = (([] : List ℕ).getD i 0)
        rfl
    | cons mr mrs =>
      by_cases hr : ℓ.hasRows = false
      · simp only [cddProcessed, cddLoop, hr, if_pos, if_true]
        cases i with
        | zero =>
          refine ⟨fun h => absurd h ?_, fun _ => rfl⟩
          simp
        | succ n =>
          have := ih mrs sigma n
          simpa using this
      · simp only [cddProcessed, cddLoop, hr, if_false]
        by_cases h1 : (sLBL && ℓ.errSqBig) = true
        · simp only [h1, if_pos, if_true]
          cases i with
          | zero => exact ⟨fun _ => rfl, fun h => absurd h (by simp)⟩
          | succ n =>
            constructor
            · intro h
              have h' : (mrs.map (fun _ => false)).getD n false = true := h
              rw [getD_map_false] at h'
              exact absurd h' (by simp)
            · intro _
              rfl
        · simp only [h1, if_false, Bool.false_eq_true]
          by_cases h2 : rest.isEmpty = true
          · simp only [h2, if_pos, if_true]
            cases i with
            | zero => exact ⟨fun _ => rfl, fun h => absurd h (by simp)⟩
            | succ n =>
              constructor
              · intro h
                have h' : (mrs.map (fun _ => false)).getD n false = true := h
                rw [getD_map_false] at h'
                exact absurd h' (by simp)
              · intro _
                rfl
          · simp only [h2, if_false, Bool.false_eq_true]
            by_cases h3 : ℓ.vcols = ℓ.rank
            · simp only [h3, if_pos, if_true]
              cases i with
              | zero => exact ⟨fun _ => rfl, fun h => absurd h (by simp)⟩
              | succ n =>
                constructor
                · intro h
                  have h' : (mrs.map (fun _ => false)).getD n false = true := h
                  rw [getD_map_false] at h'
                  exact absurd h' (by simp)
                · intro _
                  rfl
            · simp only [h3, if_false]
              cases i with
              | zero => exact ⟨fun _ => rfl, fun h => absurd h (by simp)⟩
              | succ n =>
                have := ih mrs (if 0 < max mr ℓ.rank then
                  min sigma (ℓ.singularValues.getD (max mr ℓ.rank - 1) 0)
                  else sigma) n
                simpa using this

theorem cdd_maxRank_processed (sLBL : Bool) (levels : List LevelIn)
    (mrs : List ℕ) (i : ℕ) :
    ((callProcessed sLBL levels mrs).getD i false = true →
      (computeDescentDirectionRanks sLBL levels mrs).1.getD i 0
        = max (mrs.getD i 0) ((levels.getD i ⟨false, 0, [], 0, false⟩).rank)) ∧
    ((callProcessed sLBL levels mrs).getD i false = false →
      (computeDescentDirectionRanks sLBL levels mrs).1.getD i 0
        = mrs.getD i 0) := by
  match levels, mrs with
  | [], mrs =>
    constructor
    · intro h
      rw [show ((callProcessed sLBL [] mrs).getD i false)
          = (mrs.map (fun _ => false)).getD i false from rfl,
          getD_map_false] at h
      exact absurd h (by simp)
    · intro _
      rfl
  | [ℓ], [mr] =>
    cases i with
    | zero => exact ⟨fun _ => rfl, fun h => absurd h (by simp [callProcessed])⟩
    | succ n =>
      constructor
      · intro h
        exact absurd h (by simp [callProcessed])
      · intro _
        show ([max mr ℓ.rank].getD (n + 1) 0) = ([mr].getD (n + 1) 0)
        rfl
  | [ℓ], [] => exact cddLoop_maxRank_processed sLBL [ℓ] [] valueTypeMax i
  | [ℓ], mr1 :: mr2 :: mrs =>
    exact cddLoop_maxRank_processed sLBL [ℓ] (mr1 :: mr2 :: mrs) valueTypeMax i
  | ℓ1 :: ℓ2 :: ls, mrs =>
    exact cddLoop_maxRank_processed sLBL (ℓ1 :: ℓ2 :: ls) mrs valueTypeMax i

/-- C7: across the iterations of one `solve` (consecutive calls to
`computeDescentDirection` with no intervening `update`), each level's
`maxRank` is non-decreasing; and after each single call, every level
processed in that call (reached by the loop with active rows, or the unique
level of the single-level branch) has its `maxRank` equal to the maximum of
its previous value and the rank of that level's SVD in the current call,
while every level not processed (skipped for lack of active rows, not
reached after a break, or an empty stack) keeps its previous `maxRank`
unchanged. -/
theorem maxRank_monotone_across_solve (sLBL : Bool)
    (calls : List (List LevelIn)) (mrs : List ℕ) (i : ℕ) :
    mrs.getD i 0 ≤ (solveIterations sLBL calls mrs).getD i 0 ∧
    (∀ levels : List LevelIn,
      ((callProcessed sLBL levels mrs).getD i false = true →
        (computeDescentDirectionRanks sLBL levels mrs).1.getD i 0
          = max (mrs.getD i 0) ((levels.getD i ⟨false, 0, [], 0, false⟩).rank)) ∧
      ((callProcessed sLBL levels mrs).getD i false = false →
        (computeDescentDirectionRanks sLBL levels mrs).1.getD i 0
          = mrs.getD i 0)) := by
  constructor
  · induction calls generalizing mrs with
    | nil => exact le_refl _
    | cons c cs ih =>
      calc mrs.getD i 0
          ≤ (computeDescentDirectionRanks sLBL c mrs).1.getD i 0 :=
            cdd_maxRank_mono sLBL c mrs i
        _ ≤ (solveIterations sLBL cs
              ((computeDescentDirectionRanks sLBL c mrs).1)).getD i 0 :=
            ih _
  · intro levels
    exact cdd_maxRank_processed sLBL levels mrs i

end solver

-- ------------------------------------------------------------------
-- hierarchical-iterative.cc: expandDqSmall (claim C8)
-- ------------------------------------------------------------------

namespace solver

/-- The flattened row indices of the `freeVariables_` interval set (each
pair `(start, length)` contributes `start, start+1, …, start+length−1`, in
order): the scatter targets of the block view used by `expandDqSmall`. -/
def segmentsIndices (rows : List (ℕ × ℕ)) : List ℕ :=
  (rows.map (fun s => (List.range s.2).map (fun k => s.1 + k))).flatten

/-- Scatter-write: assign the `k`-th entry of `vals` to position `idx[k]` of
`dq`, as the writable `MatrixBlockView` assignment does. -/
def scatterAt : List ℚ → List ℕ → List ℚ → List ℚ
  | dq, i :: is, v :: vs => scatterAt (dq.set i v) is vs
  | dq, _, _ => dq

/-- `HierarchicalIterative::expandDqSmall` (lines 804-807): write `dqSmall_`
into `dq_` at the indices selected by `freeVariables_`. -/
def expandDqSmall (dq : List ℚ) (freeVariables : List (ℕ × ℕ))
    (dqSmall : List ℚ) : List ℚ :=
  scatterAt dq (segmentsIndices freeVariables) dqSmall

theorem getD_set_ne (l : List ℚ) (j i : ℕ) (v : ℚ) (h : i ≠ j) :
    (l.set j v).getD i 0 = l.getD i 0 := by
  induction l generalizing i j with
  | nil => rfl
  | cons x xs ih =>
    cases j with
    | zero =>
      cases i with
      | zero => exact absurd rfl h
      | succ n => rfl
    | succ m =>
      cases i with
      | zero => rfl
      | succ n =>
        show (xs.set m v).getD n 0 = xs.getD n 0
        exact ih m n (fun hc => h (by rw [hc]))

theorem getD_set_self (l : List ℚ) (j : ℕ) (v : ℚ) (h : j < l.length) :
    (l.set j v).getD j 0 = v := by
  induction l generalizing j with
  | nil => exact absurd h (by simp)
  | cons x xs ih =>
    cases j with
    | zero => rfl
    | succ n =>
      show (xs.set n v).getD n 0 = v
      exact ih n (by simpa using h)

theorem scatterAt_length (dq : List ℚ) (idx : List ℕ) (vs : List ℚ) :
    (scatterAt dq idx vs).length = dq.length := by
  induction idx generalizing dq vs with
  | nil => simp [scatterAt]
  | cons j js ih =>
    cases vs with
    | nil => simp [scatterAt]
    | cons v vs =>
      show (scatterAt (dq.set j v) js vs).length = dq.length
      rw [ih (dq.set j v) vs, List.length_set]

theorem scatterAt_not_mem (dq : List ℚ) (idx : List ℕ) (vs : List ℚ) (i : ℕ)
    (h : i ∉ idx) : (scatterAt dq idx vs).getD i 0 = dq.getD i 0 := by
  induction idx generalizing dq vs with
  | nil => simp [scatterAt]
  | cons j js ih =>
    cases vs with
    | nil => simp [scatterAt]
    | cons v vs =>
      show (scatterAt (dq.set j v) js vs).getD i 0 = dq.getD i 0
      rw [ih (dq.set j v) vs (fun hc => h (List.mem_cons_of_mem j hc)),
          getD_set_ne dq j i v (fun hc => h (hc ▸ List.mem_cons_self j js))]

theorem scatterAt_getD (dq : List ℚ) (idx : List ℕ) (vs : List ℚ) (k : ℕ)
    (hnd : idx.Nodup) (hk : k < vs.length) (hlen : vs.length = idx.length)
    (hbound : ∀ j ∈ idx, j < dq.length) :
    (scatterAt dq idx vs).getD (idx.getD k 0) 0 = vs.getD k 0 := by
  induction idx generalizing dq vs k with
  | nil => exact absurd (hlen ▸ hk) (by simp)
  | cons j js ih =>
    cases vs with
    | nil => exact absurd hk (by simp)
    | cons v vs =>
      cases k with
      | zero =>
        show (scatterAt (dq.set j v) js vs).getD j 0 = v
        rw [scatterAt_not_mem (dq.set j v) js vs j (List.Nodup.not_mem hnd)]
        exact getD_set_self dq j v (hbound j (List.mem_cons_self j js))
      | succ n =>
        show (scatterAt (dq.set j v) js vs).getD (js.getD n 0) 0 = vs.getD n 0
        refine ih (dq.set j v) vs n (List.Nodup.of_cons hnd)
          (by simpa using hk) (by simpa using hlen) ?_
        intro x hx
        rw [List.length_set]
        exact hbound x (List.mem_cons_of_mem j hx)

/-- C8: after `expandDqSmall`, the full-size step `dq` is `dq_small`
scattered into the coordinates selected by `freeVariables` (the `k`-th entry
of `dqSmall` lands at the `k`-th selected index), every coordinate outside
the selected index set keeps its previous value, and hence stays 0 since
`update()` zeroes `dq_` (line 381) and nothing else writes it.  Hypotheses:
the interval set selects distinct in-range indices and `dqSmall` matches its
cardinal, as guaranteed by `update()`. -/
theorem expandDqSmall_frame (dq : List ℚ) (fv : List (ℕ × ℕ))
    (dqSmall : List ℚ)
    (hnd : (segmentsIndices fv).Nodup)
    (hlen : dqSmall.length = (segmentsIndices fv).length)
    (hbound : ∀ j ∈ segmentsIndices fv, j < dq.length)
    (hzero : ∀ i, i ∉ segmentsIndices fv → dq.getD i 0 = 0) :
    (expandDqSmall dq fv dqSmall).length = dq.length ∧
    (∀ k, k < dqSmall.length →
      (expandDqSmall dq fv dqSmall).getD ((segmentsIndices fv).getD k 0) 0
        = dqSmall.getD k 0) ∧
    (∀ i, i ∉ segmentsIndices fv → (expandDqSmall dq fv dqSmall).getD i 0 = 0) := by
  refine ⟨scatterAt_length dq _ dqSmall, ?_, ?_⟩
  · intro k hk
    exact scatterAt_getD dq (segmentsIndices fv) dqSmall k hnd hk hlen hbound
  · intro i hi
    show (scatterAt dq (segmentsIndices fv) dqSmall).getD i 0 = 0
    rw [scatterAt_not_mem dq (segmentsIndices fv) dqSmall i hi]
    exact hzero i hi

/-- C8, witness at `freeVariables = {[1,3)}`, `dq = [0,0,0,0]`,
`dqSmall = [5,7]`: the result is `[0,5,7,0]`. -/
theorem expandDqSmall_frame_witness :
    (expandDqSmall [0, 0, 0, 0] [(1, 2)] [5, 7]).length
        = ([(0 : ℚ), 0, 0, 0]).length ∧
    (∀ k, k < ([(5 : ℚ), 7]).length →
      (expandDqSmall [0, 0, 0, 0] [(1, 2)] [5, 7]).getD
          ((segmentsIndices [(1, 2)]).getD k 0) 0
        = ([(5 : ℚ), 7]).getD k 0) ∧
    (∀ i, i ∉ segmentsIndices [(1, 2)] →
      (expandDqSmall [0, 0, 0, 0] [(1, 2)] [5, 7]).getD i 0 = 0) :=
  expandDqSmall_frame [0, 0, 0, 0] [(1, 2)] [5, 7]
    (by decide) (by decide) (by decide)
    (by
      intro i hi
      rcases i with _ | _ | _ | _ | n <;> rfl)

end solver
